import Mathlib

/-!
Verification of the version-tree linearization engine
(`app/tree.py` and `app/models.py`).

The Python source is shallowly embedded below:

* `Version`, `LinearizedNode` mirror the pydantic models in `app/models.py`
  (timestamps are modelled as natural numbers).
* `mkVersion` mirrors `Version` construction including the
  `must_not_be_empty` field validator (construction is fallible, so it
  returns `Except`).
* `TreeBuilder`'s derived state (`self._versions`, `self._children`,
  `self._roots`) is embedded as the functions `indexOf`, `childrenOf`,
  `rootsOf` computed from the supplied version list.
* `dfs`, `linearize`, `getPage`, `lookup` mirror the methods of
  `TreeBuilder`.  Python's unbounded recursion is embedded with a fuel
  parameter; `linearize` supplies fuel `vs.length`, which is enough for
  every input on which the Python recursion terminates (a parent chain
  can have at most `vs.length` nodes).
-/

/-! ### Connector tokens (`app/tree.py`, module constants) -/

def VERTICAL : String := "│"

def TEE : String := "├──"

def CORNER : String := "└──"

def SPACE : String := "   "

def NODE_DOT : String := "•"

/-! ### Data model (`app/models.py`) -/

/-- `VersionType` enum: the three valid version types. -/
inductive VersionType where
  | TRUNK
  | BRANCH
  | RELEASE
deriving DecidableEq, Repr

/-- A version node (`class Version` in `app/models.py`).
`created_at` timestamps are modelled as `Nat`. -/
structure Version where
  id : String
  parent_id : Option String := none
  name : String
  description : Option String := none
  vtype : VersionType := VersionType.TRUNK
  created_by : String := "unknown"
  created_at : Nat := 0
deriving DecidableEq, Repr

/-- A version node enriched with tree-display metadata
(`class LinearizedNode` in `app/models.py`). -/
structure LinearizedNode where
  version : Version
  depth : Nat
  connectors : List String
  ancestors : List String
  is_last_child : Bool
deriving DecidableEq, Repr

deriving instance DecidableEq for Except

/-- The value of `datetime.now()` evaluated once, when the class body of
`Version` executes at module import.  In the Python source the field default
`created_at: datetime = datetime.now()` is this single, fixed value — it is
not re-evaluated per construction. -/
def classBodyEvalTime : Nat := 0

/-- Python's `str.strip()`: remove leading and trailing whitespace.
(Defined structurally over the character list so that it computes by
kernel reduction.) -/
def pyStrip (s : String) : String :=
  String.mk (((s.data.dropWhile Char.isWhitespace).reverse.dropWhile
    Char.isWhitespace).reverse)

/-- Construction of a `Version` (pydantic validation included).
`now` is the wall-clock time at the moment of construction; the source
never consults it, because the field default was already fixed at class
definition time (see `classBodyEvalTime`).  The `must_not_be_empty`
validator rejects an empty or whitespace-only `id` or `name` (Python:
`not v or not v.strip()`) and stores the stripped value. -/
def mkVersion (now : Nat) (id : String) (parent_id : Option String)
    (name : String) (description : Option String) (vtype : VersionType)
    (created_by : String) (created_at? : Option Nat) :
    Except String Version :=
  if id = "" ∨ pyStrip id = "" then Except.error "Field must not be empty"
  else if name = "" ∨ pyStrip name = "" then Except.error "Field must not be empty"
  else Except.ok
    { id := pyStrip id
      parent_id := parent_id
      name := pyStrip name
      description := description
      vtype := vtype
      created_by := created_by
      created_at := created_at?.getD classBodyEvalTime }

/-! ### TreeBuilder state (`TreeBuilder.__init__`) -/

/-- `self._versions = {v.id: v for v in versions}`: dict comprehension with
last-write-wins on duplicate keys, so lookup finds the last matching
version. -/
def indexOf (vs : List Version) (x : String) : Option Version :=
  vs.reverse.find? (fun v => v.id = x)

/-- `self._children[v.parent_id].append(v.id)` over the input order:
the ordered child-id list stored under a (nullable) parent key. -/
def childrenOf (vs : List Version) (p : Option String) : List String :=
  (vs.filter (fun v => v.parent_id = p)).map (fun v => v.id)

/-- A version is put in `self._roots` iff its `parent_id` is `None` or
matches no id in the index. -/
def isRootVersion (vs : List Version) (v : Version) : Bool :=
  match v.parent_id with
  | none => true
  | some p => (indexOf vs p).isNone

/-- `self._roots`, in input order. -/
def rootsOf (vs : List Version) : List String :=
  (vs.filter (fun v => isRootVersion vs v)).map (fun v => v.id)

/-- `TreeBuilder._is_last_child`.  The source raises `KeyError` when
`node_id` is not in the index; that cannot happen for ids drawn from the
collection, and is embedded as `false`. -/
def isLastChild (vs : List Version) (node_id : String) : Bool :=
  match indexOf vs node_id with
  | none => false
  | some version =>
    let siblings := childrenOf vs version.parent_id
    siblings.isEmpty || decide (siblings.getLast? = some node_id)

/-- `TreeBuilder._build_connectors`. -/
def buildConnectors (branch_open : List Bool) (depth : Nat)
    (is_last_child : Bool) : List String :=
  if depth = 0 then [NODE_DOT]
  else
    (branch_open.dropLast.map (fun f => if f then VERTICAL else SPACE))
      ++ [if is_last_child then CORNER else TEE, NODE_DOT]

/-- The `for idx, child_id in enumerate(children)` loop inside
`TreeBuilder._dfs`, abstracted over the recursive call `rec` (which is
`_dfs` at one less fuel).  `total` is `len(children)` and `idx` the
running index; the loop pushes `not child_is_last` onto the branch-open
stack, where `child_is_last = (idx == len(children) - 1)`. -/
def dfsKids (rec : String → List String → List Bool → List LinearizedNode)
    (node_id : String) (ancestors : List String) (branch_open : List Bool)
    (total : Nat) : Nat → List String → List LinearizedNode
  | _, [] => []
  | idx, c :: rest =>
    rec c (ancestors ++ [node_id]) (branch_open ++ [!decide (idx = total - 1)])
      ++ dfsKids rec node_id ancestors branch_open total (idx + 1) rest

/-- `TreeBuilder._dfs`, with a fuel parameter bounding recursion depth.
The source's `self._versions[node_id]` cannot fail for ids drawn from the
collection; the unreachable `KeyError` path is embedded as emitting
nothing. -/
def dfs (vs : List Version) (fuel : Nat) (node_id : String)
    (ancestors : List String) (branch_open : List Bool) :
    List LinearizedNode :=
  match fuel with
  | 0 => []
  | fuel + 1 =>
    match indexOf vs node_id with
    | none => []
    | some version =>
      let children := childrenOf vs (some node_id)
      let is_last := isLastChild vs node_id
      { version := version
        depth := ancestors.length
        connectors := buildConnectors branch_open ancestors.length is_last
        ancestors := ancestors
        is_last_child := is_last }
        :: dfsKids (fun c a b => dfs vs fuel c a b)
            node_id ancestors branch_open children.length 0 children

/-- `TreeBuilder.linearize`: DFS from each root with empty ancestor and
branch-open stacks.  Fuel `vs.length` covers every terminating run of the
Python recursion, since a simple parent chain has at most `vs.length`
nodes. -/
def linearize (vs : List Version) : List LinearizedNode :=
  ((rootsOf vs).map (fun r => dfs vs vs.length r [] [])).flatten

/-- `TreeBuilder.get_page`.  `page` and `page_size` are Python ints;
`-(-total // page_size)` is ceiling division written with Python floor
division (`Int.fdiv`).  The slice `linearized[start : start + page_size]`
is `drop`/`take` (faithful for the clamped non-negative `start` and a
positive `page_size`). -/
def getPage (linearized : List LinearizedNode) (page : Int)
    (page_size : Int) : List LinearizedNode × Int :=
  let total : Int := linearized.length
  let total_pages : Int := max 1 (-(Int.fdiv (-total) page_size))
  let page' : Int := max 1 (min page total_pages)
  let start : Int := (page' - 1) * page_size
  ((linearized.drop start.toNat).take page_size.toNat, total_pages)

/-- The `for node in self.linearize(): if node.version.id == node_id:
return node` loop of `TreeBuilder.lookup`. -/
def lookupAux (node_id : String) : List LinearizedNode → Option LinearizedNode
  | [] => none
  | n :: rest => if n.version.id = node_id then some n else lookupAux node_id rest

/-- `TreeBuilder.lookup`: re-linearizes and returns the first match,
`none` when no node matches. -/
def lookup (vs : List Version) (node_id : String) : Option LinearizedNode :=
  lookupAux node_id (linearize vs)

/-! ### Analysis definitions (not part of the source) -/

/-- The effective parent edge: `parentOf vs x = some p` iff `x`'s version
has `parent_id = some p` and `p` is itself an id in the index (otherwise
`x` is a root or absent). -/
def parentOf (vs : List Version) (x : String) : Option String :=
  match indexOf vs x with
  | none => none
  | some v =>
    match v.parent_id with
    | none => none
    | some p => if (indexOf vs p).isSome then some p else none

/-- `k`-fold iteration of `parentOf`: the `k`-th ancestor (if the chain
is long enough). -/
def ancIter (vs : List Version) : Nat → String → Option String
  | 0, x => some x
  | k + 1, x => (parentOf vs x).bind (ancIter vs k)

/-- The parent chain starting at `x` reaches a root (a node with no
effective parent) in fewer than `vs.length` steps. -/
def reachesRootB (vs : List Version) (x : String) : Bool :=
  (List.range vs.length).any (fun d =>
    match ancIter vs d x with
    | some r => (parentOf vs r).isNone
    | none => false)

/-- A well-formed collection: pairwise-distinct ids and every node's
parent chain reaches a root. -/
def wellFormed (vs : List Version) : Prop :=
  (vs.map (fun v => v.id)).Nodup ∧ ∀ x ∈ vs.map (fun v => v.id), reachesRootB vs x = true

instance : DecidablePred wellFormed := fun vs => by
  unfold wellFormed; infer_instance

/-- Connector sequence as the specification words it: one token per
ancestor level strictly above the immediate parent (VERTICAL if that
level still has pending siblings, SPACE otherwise), then CORNER or TEE,
then the NODE marker. -/
def specConnectors (flags : List Bool) (is_last : Bool) : List String :=
  flags.map (fun b => if b then VERTICAL else SPACE)
    ++ [if is_last then CORNER else TEE, NODE_DOT]

/-- The pending-sibling flags of a linearized node's ancestor levels
strictly above the immediate parent: level `i` (for `0 ≤ i ≤ depth-2`) is
open iff ancestor `i+1` is not the last child of ancestor `i`. -/
def ancFlags (vs : List Version) (n : LinearizedNode) : List Bool :=
  n.ancestors.tail.map (fun a => !isLastChild vs a)

/-! ### Basic facts about the builder state -/

theorem indexOf_eq_some {vs : List Version} {x : String} {v : Version}
    (h : indexOf vs x = some v) : v ∈ vs ∧ v.id = x := by
  unfold indexOf at h
  refine ⟨List.mem_reverse.1 (List.mem_of_find?_eq_some h), ?_⟩
  have h1 := List.find?_some h
  simpa using h1

theorem indexOf_isSome_iff {vs : List Version} {x : String} :
    (indexOf vs x).isSome ↔ x ∈ vs.map (fun v => v.id) := by
  unfold indexOf
  rw [List.find?_isSome]
  simp

theorem indexOf_self {vs : List Version}
    (hN : (vs.map (fun v => v.id)).Nodup) {v : Version} (hv : v ∈ vs) :
    indexOf vs v.id = some v := by
  have hs : (indexOf vs v.id).isSome := by
    rw [indexOf_isSome_iff]
    exact List.mem_map_of_mem _ hv
  obtain ⟨w, hw⟩ := Option.isSome_iff_exists.1 hs
  obtain ⟨hwm, hwid⟩ := indexOf_eq_some hw
  have : w = v := List.inj_on_of_nodup_map hN hwm hv hwid
  rw [hw, this]

theorem mem_childrenOf {vs : List Version} {p : Option String} {c : String} :
    c ∈ childrenOf vs p ↔ ∃ v ∈ vs, v.parent_id = p ∧ v.id = c := by
  unfold childrenOf
  simp only [List.mem_map, List.mem_filter, decide_eq_true_eq]
  constructor
  · rintro ⟨v, ⟨hv, hp⟩, hid⟩
    exact ⟨v, hv, hp, hid⟩
  · rintro ⟨v, hv, hp, hid⟩
    exact ⟨v, ⟨hv, hp⟩, hid⟩

theorem childrenOf_nodup {vs : List Version}
    (hN : (vs.map (fun v => v.id)).Nodup) (p : Option String) :
    (childrenOf vs p).Nodup := by
  unfold childrenOf
  exact hN.sublist (List.Sublist.map _ (List.filter_sublist vs))

theorem rootsOf_nodup {vs : List Version}
    (hN : (vs.map (fun v => v.id)).Nodup) : (rootsOf vs).Nodup := by
  unfold rootsOf
  exact hN.sublist (List.Sublist.map _ (List.filter_sublist vs))

theorem mem_rootsOf {vs : List Version} {r : String} :
    r ∈ rootsOf vs ↔ ∃ v ∈ vs, isRootVersion vs v = true ∧ v.id = r := by
  unfold rootsOf
  simp only [List.mem_map, List.mem_filter]
  constructor
  · rintro ⟨v, ⟨hv, hr⟩, hid⟩
    exact ⟨v, hv, hr, hid⟩
  · rintro ⟨v, hv, hr, hid⟩
    exact ⟨v, ⟨hv, hr⟩, hid⟩

theorem mem_ids_of_mem_childrenOf {vs : List Version} {p : Option String}
    {c : String} (h : c ∈ childrenOf vs p) : c ∈ vs.map (fun v => v.id) := by
  obtain ⟨v, hv, _, hid⟩ := mem_childrenOf.1 h
  exact hid ▸ List.mem_map_of_mem _ hv

theorem mem_ids_of_mem_rootsOf {vs : List Version} {r : String}
    (h : r ∈ rootsOf vs) : r ∈ vs.map (fun v => v.id) := by
  obtain ⟨v, hv, _, hid⟩ := mem_rootsOf.1 h
  exact hid ▸ List.mem_map_of_mem _ hv

theorem mem_rootsOf_iff_parentOf {vs : List Version}
    (hN : (vs.map (fun v => v.id)).Nodup) {r : String} :
    r ∈ rootsOf vs ↔ r ∈ vs.map (fun v => v.id) ∧ parentOf vs r = none := by
  constructor
  · intro h
    obtain ⟨v, hv, hroot, hid⟩ := mem_rootsOf.1 h
    refine ⟨hid ▸ List.mem_map_of_mem _ hv, ?_⟩
    have hidx : indexOf vs r = some v := hid ▸ indexOf_self hN hv
    unfold parentOf
    rw [hidx]
    unfold isRootVersion at hroot
    cases hp : v.parent_id with
    | none => simp [hp]
    | some p =>
      rw [hp] at hroot
      simp only [Option.isNone_iff_eq_none] at hroot
      simp [hp, hroot]
  · rintro ⟨hmem, hpar⟩
    obtain ⟨v, hv, hid⟩ := List.mem_map.1 hmem
    have hidx : indexOf vs r = some v := hid ▸ indexOf_self hN hv
    unfold parentOf at hpar
    rw [hidx] at hpar
    rw [mem_rootsOf]
    refine ⟨v, hv, ?_, hid⟩
    unfold isRootVersion
    cases hp : v.parent_id with
    | none => rfl
    | some p =>
      simp only [hp] at hpar
      by_cases hq : (indexOf vs p).isSome
      · simp [hq] at hpar
      · simpa using hq

theorem parentOf_eq_some_iff {vs : List Version}
    (hN : (vs.map (fun v => v.id)).Nodup) {c x : String} :
    parentOf vs c = some x ↔
      c ∈ childrenOf vs (some x) ∧ x ∈ vs.map (fun v => v.id) := by
  constructor
  · intro h
    unfold parentOf at h
    cases hidx : indexOf vs c with
    | none => rw [hidx] at h; simp at h
    | some v =>
      rw [hidx] at h
      obtain ⟨hvm, hvid⟩ := indexOf_eq_some hidx
      cases hp : v.parent_id with
      | none => simp [hp] at h
      | some p =>
        simp only [hp] at h
        by_cases hq : (indexOf vs p).isSome
        · simp only [hq, if_true] at h
          obtain rfl : p = x := by simpa using h
          refine ⟨mem_childrenOf.2 ⟨v, hvm, hp, hvid⟩, indexOf_isSome_iff.1 hq⟩
        · simp [hq] at h
  · rintro ⟨hc, hx⟩
    obtain ⟨v, hv, hp, hid⟩ := mem_childrenOf.1 hc
    have hidx : indexOf vs c = some v := hid ▸ indexOf_self hN hv
    unfold parentOf
    rw [hidx]
    simp [hp, indexOf_isSome_iff.2 hx]

/-! ### Unfolding and membership lemmas for the DFS -/

theorem dfs_zero {vs : List Version} {x : String} {anc : List String}
    {bo : List Bool} : dfs vs 0 x anc bo = [] := rfl

theorem dfs_succ_none {vs : List Version} {f : Nat} {x : String}
    {anc : List String} {bo : List Bool} (h : indexOf vs x = none) :
    dfs vs (f + 1) x anc bo = [] := by
  simp [dfs, h]

theorem dfs_succ_some {vs : List Version} {f : Nat} {x : String}
    {anc : List String} {bo : List Bool} {v : Version}
    (h : indexOf vs x = some v) :
    dfs vs (f + 1) x anc bo =
      { version := v
        depth := anc.length
        connectors := buildConnectors bo anc.length (isLastChild vs x)
        ancestors := anc
        is_last_child := isLastChild vs x }
        :: dfsKids (fun c a b => dfs vs f c a b) x anc bo
            (childrenOf vs (some x)).length 0 (childrenOf vs (some x)) := by
  simp [dfs, h]

theorem mem_dfsKids {rec : String → List String → List Bool → List LinearizedNode}
    {nid : String} {anc : List String} {bo : List Bool} {total : Nat} :
    ∀ {idx : Nat} {l : List String} {n : LinearizedNode},
      n ∈ dfsKids rec nid anc bo total idx l →
      ∃ i c, c ∈ l ∧ n ∈ rec c (anc ++ [nid]) (bo ++ [!decide (i = total - 1)]) := by
  intro idx l
  induction l generalizing idx with
  | nil => intro n h; simp [dfsKids] at h
  | cons c rest ih =>
    intro n h
    simp only [dfsKids, List.mem_append] at h
    rcases h with h | h
    · exact ⟨idx, c, List.mem_cons_self c rest, h⟩
    · obtain ⟨i, c', hc', hn⟩ := ih h
      exact ⟨i, c', List.mem_cons_of_mem _ hc', hn⟩

/-- Every node emitted by the DFS carries the metadata computed by the
source at its own visit: its `version` is the index entry of some id
`x'`, its `depth` is the length of its `ancestors`, its `is_last_child`
is `_is_last_child(x')`, and its `connectors` come from
`_build_connectors`. -/
theorem dfs_shape {vs : List Version} :
    ∀ (fuel : Nat) (x : String) (anc : List String) (bo : List Bool)
      {n : LinearizedNode}, n ∈ dfs vs fuel x anc bo →
      ∃ x' anc' bo',
        indexOf vs x' = some n.version ∧ n.version.id = x' ∧
        n.depth = anc'.length ∧ n.ancestors = anc' ∧
        n.is_last_child = isLastChild vs x' ∧
        n.connectors = buildConnectors bo' anc'.length (isLastChild vs x') := by
  intro fuel
  induction fuel with
  | zero => intro x anc bo n h; simp [dfs] at h
  | succ f ih =>
    intro x anc bo n h
    cases hidx : indexOf vs x with
    | none => rw [dfs_succ_none hidx] at h; simp at h
    | some v =>
      rw [dfs_succ_some hidx] at h
      rcases List.mem_cons.1 h with h | h
      · subst h
        obtain ⟨hvm, hvid⟩ := indexOf_eq_some hidx
        exact ⟨x, anc, bo, hidx, hvid, rfl, rfl, rfl, rfl⟩
      · obtain ⟨i, c, hc, hn⟩ := mem_dfsKids h
        exact ih c _ _ hn

theorem mem_linearize {vs : List Version} {n : LinearizedNode}
    (h : n ∈ linearize vs) : ∃ r ∈ rootsOf vs, n ∈ dfs vs vs.length r [] [] := by
  unfold linearize at h
  rw [List.mem_flatten] at h
  obtain ⟨l, hl, hn⟩ := h
  rw [List.mem_map] at hl
  obtain ⟨r, hr, rfl⟩ := hl
  exact ⟨r, hr, hn⟩

theorem linearize_shape {vs : List Version} {n : LinearizedNode}
    (h : n ∈ linearize vs) :
    ∃ x' anc' bo',
      indexOf vs x' = some n.version ∧ n.version.id = x' ∧
      n.depth = anc'.length ∧ n.ancestors = anc' ∧
      n.is_last_child = isLastChild vs x' ∧
      n.connectors = buildConnectors bo' anc'.length (isLastChild vs x') := by
  obtain ⟨r, _, hn⟩ := mem_linearize h
  exact dfs_shape vs.length r [] [] hn

theorem buildConnectors_tokens (bo : List Bool) (d : Nat) (l : Bool) :
    buildConnectors bo d l ≠ [] ∧
    (buildConnectors bo d l).getLast? = some NODE_DOT ∧
    (buildConnectors bo d l).count NODE_DOT = 1 := by
  unfold buildConnectors
  by_cases h : d = 0
  · simp [h]
  · have hv : VERTICAL ≠ NODE_DOT := by decide
    have hs : SPACE ≠ NODE_DOT := by decide
    have hc : CORNER ≠ NODE_DOT := by decide
    have ht : TEE ≠ NODE_DOT := by decide
    have hmap : (bo.dropLast.map (fun f => if f then VERTICAL else SPACE)).count NODE_DOT = 0 := by
      rw [List.count_eq_zero]
      intro hmem
      obtain ⟨f, _, hf⟩ := List.mem_map.1 hmem
      cases f
      · exact hs hf
      · exact hv hf
    simp only [h, if_false, ne_eq, List.append_eq_nil]
    refine ⟨by simp, ?_, ?_⟩
    · simp
    · rw [List.count_append, hmap]
      cases l <;> simp [List.count_cons, hc, ht]

/-- C10: every node in the `linearize()` output has a non-empty
connectors list whose last element is the NODE marker `•`, and the marker
occurs nowhere else in the list. -/
theorem linearize_connectors_marker (vs : List Version) (n : LinearizedNode)
    (h : n ∈ linearize vs) :
    n.connectors ≠ [] ∧ n.connectors.getLast? = some NODE_DOT ∧
    n.connectors.count NODE_DOT = 1 := by
  obtain ⟨x', anc', bo', _, _, _, _, _, hconn⟩ := linearize_shape h
  rw [hconn]
  exact buildConnectors_tokens bo' anc'.length (isLastChild vs x')

/-- C3 (amended): for every node in the `linearize()` output,
`is_last_child` is true iff the node's id is the last element of the
children sequence stored under its own `parent_id` key — for roots that
is the group of nodes sharing the same `parent_id` value (the `None`
group, or the group with the same dangling parent id), not the combined
root list. -/
theorem linearize_is_last_child (vs : List Version) (n : LinearizedNode)
    (h : n ∈ linearize vs) :
    n.is_last_child = true ↔
      (childrenOf vs n.version.parent_id).getLast? = some n.version.id := by
  obtain ⟨x', anc', bo', hidx, hvid, _, _, hlast, _⟩ := linearize_shape h
  obtain ⟨hvm, _⟩ := indexOf_eq_some hidx
  rw [hlast]
  unfold isLastChild
  rw [hidx]
  have hmem : n.version.id ∈ childrenOf vs n.version.parent_id :=
    mem_childrenOf.2 ⟨n.version, hvm, rfl, rfl⟩
  have hne : (childrenOf vs n.version.parent_id).isEmpty = false :=
    List.isEmpty_eq_false.2 (List.ne_nil_of_mem hmem)
  simp only [hne, Bool.false_or, decide_eq_true_eq, ← hvid]

/-! ### Connector generation along the DFS -/

theorem isLastChild_pos {vs : List Version}
    (hN : (vs.map (fun v => v.id)).Nodup) {x : String} {i : Nat}
    (hi : i < (childrenOf vs (some x)).length) :
    isLastChild vs (childrenOf vs (some x))[i] =
      decide (i = (childrenOf vs (some x)).length - 1) := by
  have hc : (childrenOf vs (some x))[i] ∈ childrenOf vs (some x) :=
    List.getElem_mem hi
  obtain ⟨w, hw, hwp, hwid⟩ := mem_childrenOf.1 hc
  have hidx : indexOf vs (childrenOf vs (some x))[i] = some w :=
    hwid ▸ indexOf_self hN hw
  unfold isLastChild
  rw [hidx]
  simp only [hwp]
  have hne : (childrenOf vs (some x)).isEmpty = false :=
    List.isEmpty_eq_false.2 (List.ne_nil_of_mem hc)
  simp only [hne, Bool.false_or]
  rw [decide_eq_decide, List.getLast?_eq_getElem?]
  have hlt : (childrenOf vs (some x)).length - 1 < (childrenOf vs (some x)).length := by
    omega
  rw [List.getElem?_eq_getElem hlt]
  simp only [Option.some.injEq]
  rw [(childrenOf_nodup hN (some x)).getElem_inj_iff]
  exact eq_comm

theorem mem_dfsKids_idx
    {rec : String → List String → List Bool → List LinearizedNode}
    {nid : String} {anc : List String} {bo : List Bool}
    {children : List String} :
    ∀ {idx : Nat} {l : List String}, children.drop idx = l →
      ∀ {n : LinearizedNode}, n ∈ dfsKids rec nid anc bo children.length idx l →
      ∃ (i : Nat) (hi : i < children.length),
        n ∈ rec children[i] (anc ++ [nid])
          (bo ++ [!decide (i = children.length - 1)]) := by
  intro idx l
  induction l generalizing idx with
  | nil => intro _ n h; simp [dfsKids] at h
  | cons c rest ih =>
    intro hdrop n h
    have hcid : children[idx]? = some c := by
      have h0 := List.getElem?_drop children idx 0
      rw [hdrop] at h0
      simpa using h0.symm
    obtain ⟨hlt, hget⟩ := List.getElem?_eq_some_iff.1 hcid
    simp only [dfsKids, List.mem_append] at h
    rcases h with h | h
    · exact ⟨idx, hlt, by rw [hget]; exact h⟩
    · have hdrop' : children.drop (idx + 1) = rest := by
        have h1 := List.drop_drop 1 idx children
        rw [hdrop] at h1
        simpa using h1.symm
      exact ih hdrop' h

/-- Along the DFS, the branch-open stack at a visit equals the
"pending-sibling" flags of the path from the root to the visited node
(one flag per descent step), and therefore every emitted node's
connectors follow the specification formula: one VERTICAL/SPACE token per
ancestor level strictly above the parent, then CORNER/TEE, then the NODE
marker. -/
theorem dfs_connectors {vs : List Version}
    (hN : (vs.map (fun v => v.id)).Nodup) :
    ∀ (fuel : Nat) (x : String) (anc : List String) (bo : List Bool),
      bo = ((anc ++ [x]).drop 1).map (fun a => !isLastChild vs a) →
      ∀ {n : LinearizedNode}, n ∈ dfs vs fuel x anc bo →
        (n.depth = 0 → n.connectors = [NODE_DOT]) ∧
        (0 < n.depth →
          n.connectors = specConnectors (ancFlags vs n) n.is_last_child) := by
  intro fuel
  induction fuel with
  | zero => intro x anc bo _ n h; simp [dfs] at h
  | succ f ih =>
    intro x anc bo hbo n h
    cases hidx : indexOf vs x with
    | none => rw [dfs_succ_none hidx] at h; simp at h
    | some v =>
      rw [dfs_succ_some hidx] at h
      rcases List.mem_cons.1 h with h | h
      · subst h
        constructor
        · intro hd
          simp only at hd
          show buildConnectors bo anc.length (isLastChild vs x) = [NODE_DOT]
          unfold buildConnectors
          rw [if_pos hd]
        · intro hd
          simp only at hd
          have hanc : anc ≠ [] := by
            intro hnil
            rw [hnil] at hd
            simp at hd
          have h1 : (anc ++ [x]).drop 1 = anc.drop 1 ++ [x] :=
            List.drop_append_of_le_length (by
              cases anc with
              | nil => exact absurd rfl hanc
              | cons a l => simp)
          have h2 : bo.dropLast =
              (anc.drop 1).map (fun a => !isLastChild vs a) := by
            rw [hbo, h1, List.map_append]
            simp
          show buildConnectors bo anc.length (isLastChild vs x) =
            specConnectors (anc.tail.map (fun a => !isLastChild vs a))
              (isLastChild vs x)
          unfold buildConnectors specConnectors
          rw [if_neg (by omega), h2, List.drop_one]
      · obtain ⟨i, hi, hn⟩ := mem_dfsKids_idx (List.drop_zero _) h
        refine ih (childrenOf vs (some x))[i] (anc ++ [x]) _ ?_ hn
        have h1 : ((anc ++ [x]) ++ [(childrenOf vs (some x))[i]]).drop 1 =
            (anc ++ [x]).drop 1 ++ [(childrenOf vs (some x))[i]] :=
          List.drop_append_of_le_length (by simp)
        rw [h1, List.map_append, ← hbo]
        simp only [List.map_cons, List.map_nil]
        rw [isLastChild_pos hN hi]

/-- The concrete scenario of the specification: a root with children A
then B, and A with single child A1 (input order root, A, B, A1). -/
def exTree : List Version :=
  [{ id := "root", name := "Root" },
   { id := "A", parent_id := some "root", name := "A" },
   { id := "B", parent_id := some "root", name := "B" },
   { id := "A1", parent_id := some "A", name := "A1" }]

/-- C2: for every node of the `linearize()` output over a collection with
distinct ids, a depth-0 node's connectors are exactly the NODE marker;
for depth > 0 the connectors consist of one token per ancestor level
strictly above the immediate parent — VERTICAL when that level still has
pending siblings (its branch-open flag, pushed as true when the DFS
descended into a non-last child, false for a last child), SPACE otherwise
— then CORNER when the node is its parent's last child and TEE otherwise,
then the NODE marker.  In particular, on the collection root → A, B
(A before B) with A → A1: root gets `["•"]`, A gets `["├──","•"]`,
A1 gets `["│","└──","•"]`, and B gets `["└──","•"]`. -/
theorem linearize_connectors_formula :
    (∀ (vs : List Version), (vs.map (fun v => v.id)).Nodup →
      ∀ n ∈ linearize vs,
        (n.depth = 0 → n.connectors = [NODE_DOT]) ∧
        (0 < n.depth →
          n.connectors = specConnectors (ancFlags vs n) n.is_last_child)) ∧
    (linearize exTree).map (fun n => (n.version.id, n.connectors)) =
      [("root", [NODE_DOT]), ("A", [TEE, NODE_DOT]),
       ("A1", [VERTICAL, CORNER, NODE_DOT]), ("B", [CORNER, NODE_DOT])] := by
  constructor
  · intro vs hN n hmem
    obtain ⟨r, _, hn⟩ := mem_linearize hmem
    exact dfs_connectors hN vs.length r [] [] (by simp) hn
  · decide

/-- Witness for `linearize_connectors_formula`: its hypotheses hold on the
concrete scenario collection, and the node emitted for A1 satisfies the
stated connector formula. -/
theorem linearize_connectors_formula_witness :
    (exTree.map (fun v => v.id)).Nodup ∧
    (⟨{ id := "A1", parent_id := some "A", name := "A1" }, 2,
        [VERTICAL, CORNER, NODE_DOT], ["root", "A"], true⟩ : LinearizedNode)
      ∈ linearize exTree ∧
    (0 : Nat) < 2 ∧
    [VERTICAL, CORNER, NODE_DOT] =
      specConnectors
        (ancFlags exTree
          ⟨{ id := "A1", parent_id := some "A", name := "A1" }, 2,
            [VERTICAL, CORNER, NODE_DOT], ["root", "A"], true⟩) true := by
  refine ⟨by decide, by decide, by decide, ?_⟩
  exact (linearize_connectors_formula.1 exTree (by decide)
    ⟨{ id := "A1", parent_id := some "A", name := "A1" }, 2,
      [VERTICAL, CORNER, NODE_DOT], ["root", "A"], true⟩
    (by decide)).2 (by decide)

/-! ### The ancestor chain -/

theorem parentOf_mem {vs : List Version} {x p : String}
    (h : parentOf vs x = some p) : p ∈ vs.map (fun v => v.id) := by
  unfold parentOf at h
  cases hidx : indexOf vs x with
  | none => rw [hidx] at h; simp at h
  | some v =>
    rw [hidx] at h
    cases hp : v.parent_id with
    | none => simp [hp] at h
    | some q =>
      simp only [hp] at h
      by_cases hq : (indexOf vs q).isSome
      · simp only [hq, if_true, Option.some.injEq] at h
        exact h ▸ indexOf_isSome_iff.1 hq
      · simp [hq] at h

theorem ancIter_mem {vs : List Version} {z : String} :
    ∀ {k : Nat} {y : String}, y ∈ vs.map (fun v => v.id) →
      ancIter vs k y = some z → z ∈ vs.map (fun v => v.id) := by
  intro k
  induction k with
  | zero =>
    intro y hy h
    simp only [ancIter, Option.some.injEq] at h
    exact h ▸ hy
  | succ k ih =>
    intro y hy h
    simp only [ancIter] at h
    cases hp : parentOf vs y with
    | none => rw [hp] at h; simp at h
    | some p =>
      rw [hp] at h
      exact ih (parentOf_mem hp) h

theorem ancIter_add (vs : List Version) (a b : Nat) (x : String) :
    ancIter vs (a + b) x = (ancIter vs a x).bind (ancIter vs b) := by
  induction a generalizing x with
  | zero => simp [ancIter]
  | succ k ih =>
    rw [show k + 1 + b = (k + b) + 1 from by omega]
    simp only [ancIter]
    cases parentOf vs x with
    | none => simp
    | some p => simpa using ih p

theorem ancIter_one (vs : List Version) (z : String) :
    ancIter vs 1 z = parentOf vs z := by
  simp only [ancIter]
  cases parentOf vs z <;> rfl

theorem ancIter_absorb {vs : List Version} {x r : String} {d : Nat}
    (h : ancIter vs d x = some r) (hr : parentOf vs r = none) :
    ∀ {e : Nat}, d < e → ancIter vs e x = none := by
  intro e he
  obtain ⟨t, rfl⟩ : ∃ t, e = d + (t + 1) := ⟨e - d - 1, by omega⟩
  rw [ancIter_add, h]
  show ancIter vs (t + 1) r = none
  simp [ancIter, hr]

theorem ancIter_pump {vs : List Version} {x : String} {m : Nat}
    (hm : ancIter vs m x = some x) : ∀ j, ancIter vs (j * m) x = some x := by
  intro j
  induction j with
  | zero => simp [ancIter]
  | succ j ih =>
    rw [show (j + 1) * m = j * m + m from by ring, ancIter_add, ih]
    exact hm

/-- On a chain that reaches a root, each value occurs at a unique
position (the chain cannot cycle). -/
theorem ancIter_inj {vs : List Version} {y r : String} {d : Nat}
    (hterm : ancIter vs d y = some r) (hroot : parentOf vs r = none)
    {k k' : Nat} {x : String} (h1 : ancIter vs k y = some x)
    (h2 : ancIter vs k' y = some x) : k = k' := by
  have key : ∀ (a b : Nat), a < b → ancIter vs a y = some x →
      ancIter vs b y = some x → False := by
    intro a b hab ha hb
    have ha_le : a ≤ d := by
      by_contra hcon
      rw [ancIter_absorb hterm hroot (show d < a from by omega)] at ha
      exact Option.noConfusion ha
    have hcyc : ancIter vs (b - a) x = some x := by
      have hb' : ancIter vs (a + (b - a)) y = some x := by
        rw [show a + (b - a) = b from by omega]
        exact hb
      rw [ancIter_add, ha] at hb'
      exact hb'
    have hxr : ancIter vs (d - a) x = some r := by
      have hd' : ancIter vs (a + (d - a)) y = some r := by
        rw [show a + (d - a) = d from by omega]
        exact hterm
      rw [ancIter_add, ha] at hd'
      exact hd'
    have hp := ancIter_pump hcyc (d - a + 1)
    have hgt : d - a < (d - a + 1) * (b - a) := by
      have h1m : 1 ≤ b - a := by omega
      calc d - a < d - a + 1 := by omega
        _ = (d - a + 1) * 1 := by ring
        _ ≤ (d - a + 1) * (b - a) := Nat.mul_le_mul_left _ h1m
    rw [ancIter_absorb hxr hroot hgt] at hp
    exact Option.noConfusion hp
  rcases Nat.lt_trichotomy k k' with h | h | h
  · exact absurd (key k k' h h1 h2) not_false
  · exact h
  · exact absurd (key k' k h h2 h1) not_false

theorem reachesRootB_iff {vs : List Version} {x : String} :
    reachesRootB vs x = true ↔
      ∃ d, d < vs.length ∧
        ∃ r, ancIter vs d x = some r ∧ parentOf vs r = none := by
  unfold reachesRootB
  rw [List.any_eq_true]
  constructor
  · rintro ⟨d, hd, hmatch⟩
    rw [List.mem_range] at hd
    refine ⟨d, hd, ?_⟩
    cases ha : ancIter vs d x with
    | none => rw [ha] at hmatch; simp at hmatch
    | some r =>
      rw [ha] at hmatch
      simp only [Option.isNone_iff_eq_none] at hmatch
      exact ⟨r, rfl, hmatch⟩
  · rintro ⟨d, hd, r, ha, hr⟩
    refine ⟨d, List.mem_range.2 hd, ?_⟩
    rw [ha]
    simpa using hr

/-! ### Counting nodes emitted by the DFS -/

theorem sum_ite_unique {l : List String} {P : String → Prop}
    [DecidablePred P]
    (hu : ∀ c1 ∈ l, ∀ c2 ∈ l, P c1 → P c2 → c1 = c2) (hN : l.Nodup) :
    (l.map (fun c => if P c then 1 else 0)).sum =
      if ∃ c ∈ l, P c then 1 else 0 := by
  induction l with
  | nil => simp
  | cons c rest ih =>
    simp only [List.map_cons, List.sum_cons]
    by_cases hc : P c
    · rw [if_pos hc]
      have hzero : (rest.map (fun c => if P c then 1 else 0)).sum = 0 := by
        apply List.sum_eq_zero
        intro z hz
        obtain ⟨c', hc', rfl⟩ := List.mem_map.1 hz
        rw [if_neg]
        intro hPc'
        have heq : c = c' :=
          hu c (List.mem_cons_self c rest) c' (List.mem_cons_of_mem _ hc')
            hc hPc'
        exact (List.nodup_cons.1 hN).1 (heq ▸ hc')
      rw [hzero, if_pos ⟨c, List.mem_cons_self c rest, hc⟩]
    · rw [if_neg hc, Nat.zero_add]
      have hu' : ∀ c1 ∈ rest, ∀ c2 ∈ rest, P c1 → P c2 → c1 = c2 :=
        fun c1 h1 c2 h2 => hu c1 (List.mem_cons_of_mem _ h1) c2
          (List.mem_cons_of_mem _ h2)
      rw [ih hu' (List.nodup_cons.1 hN).2]
      have hiff : (∃ c' ∈ rest, P c') ↔ (∃ c' ∈ c :: rest, P c') := by
        constructor
        · rintro ⟨c', h1, h2⟩
          exact ⟨c', List.mem_cons_of_mem _ h1, h2⟩
        · rintro ⟨c', h1, h2⟩
          rcases List.mem_cons.1 h1 with rfl | h1
          · exact absurd h2 hc
          · exact ⟨c', h1, h2⟩
      simp only [hiff]

theorem dfsKids_count
    {rec : String → List String → List Bool → List LinearizedNode}
    {nid : String} {anc : List String} {bo : List Bool} {total : Nat}
    {y : String} {E : String → Nat} :
    ∀ (idx : Nat) (l : List String),
      (∀ c ∈ l, ∀ a b, ((rec c a b).map (fun n => n.version.id)).count y = E c) →
      ((dfsKids rec nid anc bo total idx l).map (fun n => n.version.id)).count y
        = (l.map E).sum := by
  intro idx l
  induction l generalizing idx with
  | nil => intro _; simp [dfsKids]
  | cons c rest ih =>
    intro hrec
    simp only [dfsKids, List.map_append, List.count_append, List.map_cons,
      List.sum_cons]
    rw [hrec c (List.mem_cons_self c rest),
      ih (idx + 1) (fun c' h1 => hrec c' (List.mem_cons_of_mem _ h1))]

/-- The DFS from `x` emits a node with id `y` exactly once when `x` is an
ancestor (within fuel) of `y` along the parent chain, and never
otherwise — provided ids are distinct and `y`'s chain reaches a root. -/
theorem dfs_count {vs : List Version}
    (hN : (vs.map (fun v => v.id)).Nodup) {y r0 : String} {d0 : Nat}
    (hterm : ancIter vs d0 y = some r0) (hroot : parentOf vs r0 = none) :
    ∀ (fuel : Nat) (x : String), x ∈ vs.map (fun v => v.id) →
      ∀ (anc : List String) (bo : List Bool),
        ((dfs vs fuel x anc bo).map (fun n => n.version.id)).count y =
          if ∃ k, k < fuel ∧ ancIter vs k y = some x then 1 else 0 := by
  intro fuel
  induction fuel with
  | zero =>
    intro x _ anc bo
    rw [if_neg (by rintro ⟨k, hk, _⟩; omega)]
    simp [dfs]
  | succ f ih =>
    intro x hx anc bo
    cases hidx : indexOf vs x with
    | none =>
      exact absurd (indexOf_isSome_iff.2 hx) (by simp [hidx])
    | some v =>
      have hvid : v.id = x := (indexOf_eq_some hidx).2
      rw [dfs_succ_some hidx]
      simp only [List.map_cons, List.count_cons]
      have hkids := @dfsKids_count (fun c a b => dfs vs f c a b) x anc bo
        (childrenOf vs (some x)).length y
        (fun c => if ∃ k, k < f ∧ ancIter vs k y = some c then 1 else 0)
        0 (childrenOf vs (some x))
        (fun c hc a b => ih c (mem_ids_of_mem_childrenOf hc) a b)
      rw [hkids]
      have hchild_iff : ∀ c ∈ childrenOf vs (some x),
          parentOf vs c = some x :=
        fun c hc => (parentOf_eq_some_iff hN).2 ⟨hc, hx⟩
      by_cases hxy : y = x
      · subst hxy
        have hzero : ((childrenOf vs (some y)).map (fun c =>
            if ∃ k, k < f ∧ ancIter vs k y = some c then 1 else 0)).sum = 0 := by
          apply List.sum_eq_zero
          intro z hz
          obtain ⟨c, hc, rfl⟩ := List.mem_map.1 hz
          rw [if_neg]
          rintro ⟨k, hk, hiter⟩
          have hsucc : ancIter vs (k + 1) y = some y := by
            rw [ancIter_add, hiter]
            show ancIter vs 1 c = some y
            rw [ancIter_one]
            exact hchild_iff c hc
          have h0 : ancIter vs 0 y = some y := rfl
          have := ancIter_inj hterm hroot h0 hsucc
          omega
        rw [hzero]
        have hex : ∃ k, k < f + 1 ∧ ancIter vs k y = some y :=
          ⟨0, by omega, by simp [ancIter]⟩
        rw [if_pos hex]
        simp [hvid]
      · have huniq : ∀ c1 ∈ childrenOf vs (some x), ∀ c2 ∈ childrenOf vs (some x),
            (∃ k, k < f ∧ ancIter vs k y = some c1) →
            (∃ k, k < f ∧ ancIter vs k y = some c2) → c1 = c2 := by
          rintro c1 h1 c2 h2 ⟨k1, _, hi1⟩ ⟨k2, _, hi2⟩
          have hs1 : ancIter vs (k1 + 1) y = some x := by
            rw [ancIter_add, hi1]
            show ancIter vs 1 c1 = some x
            rw [ancIter_one]
            exact hchild_iff c1 h1
          have hs2 : ancIter vs (k2 + 1) y = some x := by
            rw [ancIter_add, hi2]
            show ancIter vs 1 c2 = some x
            rw [ancIter_one]
            exact hchild_iff c2 h2
          have : k1 + 1 = k2 + 1 := ancIter_inj hterm hroot hs1 hs2
          have hk12 : k1 = k2 := by omega
          rw [hk12] at hi1
          exact Option.some_inj.1 (hi1.symm.trans hi2)
        rw [sum_ite_unique huniq (childrenOf_nodup hN (some x))]
        have hiff : (∃ c ∈ childrenOf vs (some x),
              ∃ k, k < f ∧ ancIter vs k y = some c) ↔
            (∃ k, k < f + 1 ∧ ancIter vs k y = some x) := by
          constructor
          · rintro ⟨c, hc, k, hk, hiter⟩
            refine ⟨k + 1, by omega, ?_⟩
            rw [ancIter_add, hiter]
            show ancIter vs 1 c = some x
            rw [ancIter_one]
            exact hchild_iff c hc
          · rintro ⟨k, hk, hiter⟩
            cases k with
            | zero =>
              exact absurd (by simpa [ancIter] using hiter) hxy
            | succ k =>
              rw [ancIter_add vs k 1] at hiter
              cases hik : ancIter vs k y with
              | none => rw [hik] at hiter; exact absurd hiter (by simp)
              | some c =>
                rw [hik] at hiter
                rw [show ((some c).bind (ancIter vs 1) : Option String) =
                  ancIter vs 1 c from rfl, ancIter_one] at hiter
                refine ⟨c, ?_, k, by omega, hik⟩
                exact ((parentOf_eq_some_iff hN).1 hiter).1
        have hne : v.id ≠ y := by
          rw [hvid]
          exact fun he => hxy he.symm
        simp [hiff, hne, Ne.symm hne]

theorem linearize_ids_subset {vs : List Version} {n : LinearizedNode}
    (h : n ∈ linearize vs) : n.version.id ∈ vs.map (fun v => v.id) := by
  obtain ⟨x', _, _, hidx, _, _, _, _, _⟩ := linearize_shape h
  exact List.mem_map_of_mem _ (indexOf_eq_some hidx).1

theorem linearize_version_index {vs : List Version} {n : LinearizedNode}
    (h : n ∈ linearize vs) : indexOf vs n.version.id = some n.version := by
  obtain ⟨x', _, _, hidx, hvid, _, _, _, _⟩ := linearize_shape h
  rw [hvid]
  exact hidx

theorem linearize_count {vs : List Version}
    (hN : (vs.map (fun v => v.id)).Nodup)
    (hreach : ∀ x ∈ vs.map (fun v => v.id), reachesRootB vs x = true)
    {y : String} (hy : y ∈ vs.map (fun v => v.id)) :
    ((linearize vs).map (fun n => n.version.id)).count y = 1 := by
  obtain ⟨d0, hd0, r0, hterm, hroot⟩ := reachesRootB_iff.1 (hreach y hy)
  unfold linearize
  rw [List.map_flatten, List.count_flatten, List.map_map, List.map_map]
  show (List.map (fun r => List.count y
      (List.map (fun n => n.version.id) (dfs vs vs.length r [] [])))
      (rootsOf vs)).sum = 1
  have hpt : ∀ r ∈ rootsOf vs,
      List.count y
        (List.map (fun n => n.version.id) (dfs vs vs.length r [] [])) =
      (fun r => if ∃ k, k < vs.length ∧ ancIter vs k y = some r
        then 1 else 0) r := by
    intro r hr
    exact dfs_count hN hterm hroot vs.length r (mem_ids_of_mem_rootsOf hr) [] []
  rw [List.map_congr_left hpt]
  have huniq : ∀ r1 ∈ rootsOf vs, ∀ r2 ∈ rootsOf vs,
      (∃ k, k < vs.length ∧ ancIter vs k y = some r1) →
      (∃ k, k < vs.length ∧ ancIter vs k y = some r2) → r1 = r2 := by
    rintro r1 h1 r2 h2 ⟨k1, _, hi1⟩ ⟨k2, _, hi2⟩
    have hr1 : parentOf vs r1 = none :=
      ((mem_rootsOf_iff_parentOf hN).1 h1).2
    have hr2 : parentOf vs r2 = none :=
      ((mem_rootsOf_iff_parentOf hN).1 h2).2
    rcases Nat.lt_trichotomy k1 k2 with h | h | h
    · rw [ancIter_absorb hi1 hr1 h] at hi2
      exact absurd hi2 (by simp)
    · rw [h] at hi1
      exact Option.some_inj.1 (hi1.symm.trans hi2)
    · rw [ancIter_absorb hi2 hr2 h] at hi1
      exact absurd hi1 (by simp)
  rw [sum_ite_unique huniq (rootsOf_nodup hN)]
  rw [if_pos ⟨r0, (mem_rootsOf_iff_parentOf hN).2
    ⟨ancIter_mem hy hterm, hroot⟩, d0, hd0, hterm⟩]

/-- A junk version used only as garbage-collection default in proofs. -/
def fallbackVersion : Version := { id := "", name := "" }

/-- C1 (amended): for every collection of Version nodes with
pairwise-distinct ids in which every node's parent chain reaches a root,
`linearize()` produces a sequence whose underlying versions are a
permutation of the collection (every node appears exactly once), and
every node of depth 0 in the sequence has an empty ancestors list. -/
theorem linearize_visits_once (vs : List Version) (h : wellFormed vs) :
    ((linearize vs).map (fun n => n.version)).Perm vs ∧
    ∀ n ∈ linearize vs, n.depth = 0 → n.ancestors = [] := by
  obtain ⟨hN, hreach⟩ := h
  constructor
  · have hids : ((linearize vs).map (fun n => n.version.id)).Perm
        (vs.map (fun v => v.id)) := by
      rw [List.perm_iff_count]
      intro a
      by_cases ha : a ∈ vs.map (fun v => v.id)
      · rw [linearize_count hN hreach ha, List.count_eq_one_of_mem hN ha]
      · have h1 : ((linearize vs).map (fun n => n.version.id)).count a = 0 := by
          rw [List.count_eq_zero]
          intro hmem
          obtain ⟨n, hn, rfl⟩ := List.mem_map.1 hmem
          exact ha (linearize_ids_subset hn)
        rw [h1, List.count_eq_zero.2 ha]
    have h2 : (linearize vs).map (fun n => n.version) =
        ((linearize vs).map (fun n => n.version.id)).map
          (fun x => (indexOf vs x).getD fallbackVersion) := by
      rw [List.map_map]
      apply List.map_congr_left
      intro n hn
      show n.version = (indexOf vs n.version.id).getD fallbackVersion
      rw [linearize_version_index hn]
      rfl
    have h3 : (vs.map (fun v => v.id)).map
        (fun x => (indexOf vs x).getD fallbackVersion) = vs := by
      rw [List.map_map]
      have hpt : ∀ v ∈ vs,
          ((fun x => (indexOf vs x).getD fallbackVersion) ∘ fun v => v.id) v
            = id v := by
        intro v hv
        show (indexOf vs v.id).getD fallbackVersion = v
        rw [indexOf_self hN hv]
        rfl
      rw [List.map_congr_left hpt, List.map_id]
    have hfin := hids.map (fun x => (indexOf vs x).getD fallbackVersion)
    rw [← h2, h3] at hfin
    exact hfin
  · intro n hn hd
    obtain ⟨x', anc', bo', _, _, hdep, hanc, _, _⟩ := linearize_shape hn
    rw [hanc]
    rw [hdep] at hd
    exact List.eq_nil_of_length_eq_zero hd

/-- Witness for `linearize_visits_once` at the concrete scenario
collection. -/
theorem linearize_visits_once_witness :
    wellFormed exTree ∧
    (((linearize exTree).map (fun n => n.version)).Perm exTree ∧
      ∀ n ∈ linearize exTree, n.depth = 0 → n.ancestors = []) :=
  ⟨by decide, linearize_visits_once exTree (by decide)⟩

/-- A two-node parent cycle: each node names the other as parent, so
neither is a root. -/
def cycleTree : List Version :=
  [{ id := "a", parent_id := some "b", name := "A" },
   { id := "b", parent_id := some "a", name := "B" }]

/-- C1 counterexample: on the non-empty two-node parent cycle a ↔ b,
`linearize()` returns the empty sequence — node a, a member of the
collection, appears zero times, so "every node appears exactly once" is
false for this non-empty collection. -/
theorem linearize_cycle_counterexample :
    cycleTree ≠ [] ∧
    ({ id := "a", parent_id := some "b", name := "A" } : Version) ∈ cycleTree ∧
    linearize cycleTree = [] ∧
    ¬ ((linearize cycleTree).map (fun n => n.version)).Perm cycleTree := by
  decide

/-- A collection with a plain root and an orphan root: the combined root
list is ["a", "b"] but the two roots live under different parent keys. -/
def orphanPair : List Version :=
  [{ id := "a", name := "A" },
   { id := "b", parent_id := some "zz", name := "B" }]

/-- C3 counterexample: node a has no parent, so it is a root; the root
list is ["a", "b"], whose last element is "b", so the claim predicts
`is_last_child = false` for a — but the code computes it against the
children group of a's own parent key (`None`), where a is last, and
returns true. -/
theorem is_last_child_counterexample :
    rootsOf orphanPair = ["a", "b"] ∧
    ∃ n ∈ linearize orphanPair, n.version.parent_id = none ∧
      n.version.id = "a" ∧ n.is_last_child = true ∧
      (rootsOf orphanPair).getLast? ≠ some n.version.id := by
  decide

/-- Witness for `linearize_is_last_child` at the concrete scenario
collection: the node emitted for A is not its parent's last child. -/
theorem linearize_is_last_child_witness :
    (⟨{ id := "A", parent_id := some "root", name := "A" }, 1,
        [TEE, NODE_DOT], ["root"], false⟩ : LinearizedNode) ∈ linearize exTree ∧
    ((false = true) ↔
      (childrenOf exTree (some "root")).getLast? = some "A") :=
  ⟨by decide,
    linearize_is_last_child exTree
      ⟨{ id := "A", parent_id := some "root", name := "A" }, 1,
        [TEE, NODE_DOT], ["root"], false⟩ (by decide)⟩

/-- Witness for `linearize_connectors_marker` at the concrete scenario
collection. -/
theorem linearize_connectors_marker_witness :
    (⟨{ id := "root", name := "Root" }, 0, [NODE_DOT], [], true⟩
        : LinearizedNode) ∈ linearize exTree ∧
    ([NODE_DOT] ≠ ([] : List String) ∧
      [NODE_DOT].getLast? = some NODE_DOT ∧
      [NODE_DOT].count NODE_DOT = 1) :=
  ⟨by decide,
    linearize_connectors_marker exTree
      ⟨{ id := "root", name := "Root" }, 0, [NODE_DOT], [], true⟩
      (by decide)⟩

/-! ### Pagination -/

/-- Python's `-(-total // page_size)` is ceiling division. -/
theorem fdiv_ceil_eq (n m : Nat) (hm : 1 ≤ m) :
    -(Int.fdiv (-(n : Int)) (m : Int)) = ((n + m - 1) / m : Nat) := by
  have hm0 : (0 : Int) ≤ (m : Int) := Int.ofNat_nonneg m
  have hmpos : (0 : Int) < (m : Int) := by exact_mod_cast hm
  rw [Int.fdiv_eq_ediv _ hm0]
  have hd := Nat.div_add_mod (n + m - 1) m
  have hmod := Nat.mod_lt (n + m - 1) (show 0 < m from hm)
  obtain ⟨M, hM⟩ : ∃ M, m * ((n + m - 1) / m) = M := ⟨_, rfl⟩
  rw [hM] at hd
  have h1 : n ≤ M := by omega
  have h2 : M + 1 ≤ n + m := by omega
  have hMi : (M : Int) = (m : Int) * (((n + m - 1) / m : Nat) : Int) := by
    rw [← hM]
    push_cast
    ring
  have hr0 : (0 : Int) ≤ (M : Int) - (n : Int) := by
    have hcast : (n : Int) ≤ (M : Int) := by exact_mod_cast h1
    linarith
  have hrm : (M : Int) - (n : Int) < (m : Int) := by
    have hcast : (M : Int) + 1 ≤ (n : Int) + (m : Int) := by exact_mod_cast h2
    linarith
  have key : (-(n : Int)) / (m : Int) = -(((n + m - 1) / m : Nat) : Int) :=
    ((Int.ediv_emod_unique hmpos).2
      ⟨by rw [mul_neg, ← hMi]; ring, hr0, hrm⟩).1
  rw [key, neg_neg]

theorem take_add_split {α : Type} (l : List α) (a b : Nat) :
    l.take (a + b) = l.take a ++ (l.drop a).take b := by
  conv_lhs => rw [← List.take_append_drop a (l.take (a + b))]
  congr 1
  · rw [List.take_take, min_eq_left (by omega)]
  · exact (List.take_drop a b l).symm

theorem chunks_flatten {α : Type} (l : List α) (m : Nat) :
    ∀ k, ((List.range k).map (fun i => (l.drop (i * m)).take m)).flatten =
      l.take (k * m) := by
  intro k
  induction k with
  | zero => simp
  | succ k ih =>
    rw [List.range_succ, List.map_append, List.flatten_append]
    simp only [List.map_cons, List.map_nil, List.flatten_cons,
      List.flatten_nil, List.append_nil]
    rw [ih, show (k + 1) * m = k * m + m from by ring, take_add_split]

/-- C4: for every linearized sequence, integer `page` and
`page_size ≥ 1`, `get_page` reports `total_pages = max(1, ⌈total/size⌉)`
(an empty sequence reports one page of zero nodes), clamps the requested
page into `[1, total_pages]` instead of failing, and returns the
contiguous slice of at most `page_size` elements starting at zero-based
offset `(clamped_page - 1) * page_size`. -/
theorem getPage_spec (lin : List LinearizedNode) (page psize : Int)
    (hps : 1 ≤ psize) :
    (getPage lin page psize).2 =
        ((max 1 ((lin.length + psize.toNat - 1) / psize.toNat) : Nat) : Int) ∧
    (lin = [] → (getPage lin page psize).2 = 1 ∧
      (getPage lin page psize).1 = []) ∧
    (1 ≤ max 1 (min page (getPage lin page psize).2) ∧
      max 1 (min page (getPage lin page psize).2) ≤
        (getPage lin page psize).2) ∧
    (page ≤ 0 → max 1 (min page (getPage lin page psize).2) = 1) ∧
    (1 ≤ page → page ≤ (getPage lin page psize).2 →
      max 1 (min page (getPage lin page psize).2) = page) ∧
    ((getPage lin page psize).2 < page →
      max 1 (min page (getPage lin page psize).2) =
        (getPage lin page psize).2) ∧
    (getPage lin page psize).1 =
      (lin.drop (((max 1 (min page (getPage lin page psize).2) - 1)
        * psize).toNat)).take psize.toNat ∧
    (getPage lin page psize).1.length ≤ psize.toNat := by
  obtain ⟨m, rfl⟩ : ∃ m : Nat, psize = (m : Int) :=
    ⟨psize.toNat, (Int.toNat_of_nonneg (by omega)).symm⟩
  have hm : 1 ≤ m := by exact_mod_cast hps
  have htp : (getPage lin page (m : Int)).2 =
      ((max 1 ((lin.length + m - 1) / m) : Nat) : Int) := by
    show max 1 (-(Int.fdiv (-(lin.length : Int)) (m : Int))) = _
    rw [fdiv_ceil_eq lin.length m hm]
    push_cast [Nat.cast_max]
    rfl
  have htp' : (1 : Int) ≤ (getPage lin page (m : Int)).2 := by
    rw [htp]
    have : 1 ≤ max 1 ((lin.length + m - 1) / m) := le_max_left 1 _
    exact_mod_cast this
  refine ⟨by rw [htp]; simp, ?_, ⟨by omega, by omega⟩, ?_, ?_, ?_, ?_, ?_⟩
  · intro hnil
    subst hnil
    constructor
    · rw [htp]
      simp [Nat.div_eq_of_lt (show m - 1 < m from by omega)]
    · show (List.take _ (List.drop _ [])) = []
      simp
  · intro hpage
    omega
  · intro h1 h2
    omega
  · intro h
    omega
  · rfl
  · show (List.take (m : Int).toNat _).length ≤ (m : Int).toNat
    calc (List.take (m : Int).toNat _).length ≤ (m : Int).toNat :=
      List.length_take_le _ _

/-- Witness for `getPage_spec` on a concrete one-node sequence with an
out-of-range page request. -/
theorem getPage_spec_witness :
    (1 : Int) ≤ 2 ∧
    (getPage [⟨{ id := "root", name := "Root" }, 0, [NODE_DOT], [], true⟩]
        5 2).2 =
      ((max 1 ((1 + (2 : Int).toNat - 1) / (2 : Int).toNat) : Nat) : Int) :=
  ⟨by norm_num,
    (getPage_spec [⟨{ id := "root", name := "Root" }, 0, [NODE_DOT], [], true⟩]
      5 2 (by norm_num)).1⟩

theorem getPage_def (lin : List LinearizedNode) (page psize : Int) :
    getPage lin page psize =
      ((lin.drop ((max 1 (min page
          (max 1 (-(Int.fdiv (-(lin.length : Int)) psize)))) - 1)
          * psize).toNat).take psize.toNat,
        max 1 (-(Int.fdiv (-(lin.length : Int)) psize))) := rfl

/-- C5: for every linearized sequence and `page_size ≥ 1`, concatenating
the slices of pages `1 .. total_pages`, in order, reproduces the full
sequence exactly. -/
theorem getPage_concat (lin : List LinearizedNode) (psize : Int)
    (hps : 1 ≤ psize) :
    ((List.range ((getPage lin 1 psize).2).toNat).map
      (fun i : Nat => (getPage lin ((i : Int) + 1) psize).1)).flatten = lin := by
  obtain ⟨m, rfl⟩ : ∃ m : Nat, psize = (m : Int) :=
    ⟨psize.toNat, (Int.toNat_of_nonneg (by omega)).symm⟩
  have hm : 1 ≤ m := by exact_mod_cast hps
  have hfd : max 1 (-(Int.fdiv (-(lin.length : Int)) (m : Int))) =
      ((max 1 ((lin.length + m - 1) / m) : Nat) : Int) := by
    rw [fdiv_ceil_eq lin.length m hm]
    push_cast [Nat.cast_max]
    rfl
  have htpn : ((getPage lin 1 (m : Int)).2).toNat =
      max 1 ((lin.length + m - 1) / m) := by
    rw [getPage_def, hfd]
    exact Int.toNat_natCast _
  rw [htpn]
  have hslice : ∀ i ∈ List.range (max 1 ((lin.length + m - 1) / m)),
      (fun i : Nat => (getPage lin ((i : Int) + 1) (m : Int)).1) i =
      (fun i : Nat => (lin.drop (i * m)).take m) i := by
    intro i hi
    rw [List.mem_range] at hi
    show (getPage lin ((i : Int) + 1) (m : Int)).1 = (lin.drop (i * m)).take m
    rw [getPage_def, hfd]
    have hclamp : max 1 (min ((i : Int) + 1)
        ((max 1 ((lin.length + m - 1) / m) : Nat) : Int)) = (i : Int) + 1 := by
      have hle : (i : Int) + 1 ≤
          ((max 1 ((lin.length + m - 1) / m) : Nat) : Int) := by
        exact_mod_cast Nat.succ_le_of_lt hi
      omega
    rw [hclamp]
    have hstart : (((i : Int) + 1 - 1) * (m : Int)).toNat = i * m := by
      rw [show (i : Int) + 1 - 1 = (i : Int) from by ring]
      rw [show (i : Int) * (m : Int) = ((i * m : Nat) : Int) from by push_cast; ring]
      exact Int.toNat_natCast _
    rw [hstart, Int.toNat_natCast]
  rw [List.map_congr_left hslice, chunks_flatten]
  apply List.take_of_length_le
  have hd := Nat.div_add_mod (lin.length + m - 1) m
  have hmod := Nat.mod_lt (lin.length + m - 1) (show 0 < m from hm)
  obtain ⟨M, hM⟩ : ∃ M, m * ((lin.length + m - 1) / m) = M := ⟨_, rfl⟩
  rw [hM] at hd
  by_cases hc : (lin.length + m - 1) / m = 0
  · have hM0 : M = 0 := by rw [← hM, hc, Nat.mul_zero]
    have hn0 : lin.length = 0 := by omega
    rw [hc, hn0]
    exact Nat.zero_le _
  · have hTc : max 1 ((lin.length + m - 1) / m) = (lin.length + m - 1) / m :=
      max_eq_right (Nat.one_le_iff_ne_zero.2 hc)
    have hTm : max 1 ((lin.length + m - 1) / m) * m = M := by
      rw [hTc, Nat.mul_comm, hM]
    rw [hTm]
    omega

/-- Witness for `getPage_concat` on a concrete two-node sequence with
page size 1. -/
theorem getPage_concat_witness :
    (1 : Int) ≤ 1 ∧
    ((List.range ((getPage
        [⟨{ id := "a", name := "A" }, 0, [NODE_DOT], [], false⟩,
         ⟨{ id := "b", name := "B" }, 0, [NODE_DOT], [], true⟩] 1 1).2).toNat).map
      (fun i : Nat => (getPage
        [⟨{ id := "a", name := "A" }, 0, [NODE_DOT], [], false⟩,
         ⟨{ id := "b", name := "B" }, 0, [NODE_DOT], [], true⟩]
        ((i : Int) + 1) 1).1)).flatten =
      [⟨{ id := "a", name := "A" }, 0, [NODE_DOT], [], false⟩,
       ⟨{ id := "b", name := "B" }, 0, [NODE_DOT], [], true⟩] :=
  ⟨le_refl 1,
    getPage_concat
      [⟨{ id := "a", name := "A" }, 0, [NODE_DOT], [], false⟩,
       ⟨{ id := "b", name := "B" }, 0, [NODE_DOT], [], true⟩] 1 (le_refl 1)⟩

/-! ### Lookup -/

theorem lookupAux_spec (x : String) : ∀ l : List LinearizedNode,
    ((∃ n ∈ l, n.version.id = x) →
      ∃ n, lookupAux x l = some n ∧ n.version.id = x ∧ n ∈ l) ∧
    ((∀ n ∈ l, n.version.id ≠ x) → lookupAux x l = none) := by
  intro l
  induction l with
  | nil =>
    constructor
    · rintro ⟨n, hn, _⟩
      exact absurd hn (List.not_mem_nil n)
    · intro _
      rfl
  | cons a rest ih =>
    constructor
    · rintro ⟨n, hn, hid⟩
      by_cases ha : a.version.id = x
      · exact ⟨a, by simp [lookupAux, ha], ha, List.mem_cons_self a rest⟩
      · rcases List.mem_cons.1 hn with rfl | hn
        · exact absurd hid ha
        · obtain ⟨n', h1, h2, h3⟩ := ih.1 ⟨n, hn, hid⟩
          exact ⟨n', by simp [lookupAux, ha, h1], h2,
            List.mem_cons_of_mem _ h3⟩
    · intro hall
      have ha : a.version.id ≠ x := hall a (List.mem_cons_self a rest)
      simp only [lookupAux, if_neg ha]
      exact ih.2 (fun n hn => hall n (List.mem_cons_of_mem _ hn))

/-- C6: `lookup(id)` returns (never raises) a LinearizedNode whose
Version id matches the argument whenever one exists in the current
collection's linearization, and the not-found signal `none` when no node
matches. -/
theorem lookup_spec (vs : List Version) (x : String) :
    ((∃ n ∈ linearize vs, n.version.id = x) →
      ∃ n, lookup vs x = some n ∧ n.version.id = x ∧ n ∈ linearize vs) ∧
    ((∀ n ∈ linearize vs, n.version.id ≠ x) → lookup vs x = none) :=
  lookupAux_spec x (linearize vs)

/-- Witness for `lookup_spec`: a present id is found and an absent id
yields `none` on the concrete scenario collection. -/
theorem lookup_spec_witness :
    (∃ n ∈ linearize exTree, n.version.id = "A1") ∧
    (∃ n, lookup exTree "A1" = some n ∧ n.version.id = "A1" ∧
      n ∈ linearize exTree) ∧
    (∀ n ∈ linearize exTree, n.version.id ≠ "zz") ∧
    lookup exTree "zz" = none :=
  ⟨by decide, (lookup_spec exTree "A1").1 (by decide), by decide,
    (lookup_spec exTree "zz").2 (by decide)⟩

/-! ### Validation and construction of Version records -/

/-- C7: constructing a Version whose id or name is empty or
whitespace-only fails with a ValidationError at construction time;
construction succeeds exactly when both are non-empty after trimming. -/
theorem mkVersion_validation (now : Nat) (id name : String)
    (pid : Option String) (desc : Option String) (vt : VersionType)
    (cb : String) (ca : Option Nat) :
    ((∃ v, mkVersion now id pid name desc vt cb ca = Except.ok v) ↔
      (pyStrip id ≠ "" ∧ pyStrip name ≠ "")) ∧
    ((∃ e, mkVersion now id pid name desc vt cb ca = Except.error e) ↔
      (pyStrip id = "" ∨ pyStrip name = "")) := by
  have hid : (id = "" ∨ pyStrip id = "") ↔ pyStrip id = "" := by
    constructor
    · rintro (rfl | h)
      · rfl
      · exact h
    · exact Or.inr
  have hname : (name = "" ∨ pyStrip name = "") ↔ pyStrip name = "" := by
    constructor
    · rintro (rfl | h)
      · rfl
      · exact h
    · exact Or.inr
  unfold mkVersion
  by_cases h1 : pyStrip id = ""
  · rw [if_pos (hid.2 h1)]
    constructor
    · constructor
      · rintro ⟨v, hv⟩
        exact absurd hv (by simp)
      · rintro ⟨hne, _⟩
        exact absurd h1 hne
    · constructor
      · intro _
        exact Or.inl h1
      · intro _
        exact ⟨_, rfl⟩
  · rw [if_neg (fun hcon => h1 (hid.1 hcon))]
    by_cases h2 : pyStrip name = ""
    · rw [if_pos (hname.2 h2)]
      constructor
      · constructor
        · rintro ⟨v, hv⟩
          exact absurd hv (by simp)
        · rintro ⟨_, hne⟩
          exact absurd h2 hne
      · constructor
        · intro _
          exact Or.inr h2
        · intro _
          exact ⟨_, rfl⟩
    · rw [if_neg (fun hcon => h2 (hname.1 hcon))]
      constructor
      · constructor
        · intro _
          exact ⟨h1, h2⟩
        · intro _
          exact ⟨_, rfl⟩
      · constructor
        · rintro ⟨e, he⟩
          exact absurd he (by simp)
        · rintro (h | h)
          · exact absurd h h1
          · exact absurd h h2

/-- C8 (exhibiting the code bug): two Versions constructed at different
wall-clock times without an explicit `created_at` both receive the single
class-body-evaluation-time default — `datetime.now()` in the field
default was evaluated once at module import, not per construction — so
their timestamps are equal, contrary to the documented "default is
creation time". -/
theorem created_at_ignores_construction_time (t1 t2 : Nat) :
    ∃ v1 v2 : Version,
      mkVersion t1 "a" none "A" none VersionType.TRUNK "unknown" none =
        Except.ok v1 ∧
      mkVersion t2 "a" none "A" none VersionType.TRUNK "unknown" none =
        Except.ok v2 ∧
      v1.created_at = classBodyEvalTime ∧
      v2.created_at = classBodyEvalTime ∧
      v1.created_at = v2.created_at :=
  ⟨{ id := "a", name := "A" }, { id := "a", name := "A" },
    by rfl, by rfl, rfl, rfl, rfl⟩

/-- C9: Version construction stores id and name trimmed while parent_id
is stored unmodified; hence a node whose parent_id is an existing node's
id surrounded by whitespace matches no index entry and is treated as an
orphan root by the TreeBuilder. -/
theorem mkVersion_trims_and_orphan :
    (∀ (now : Nat) (id name : String) (pid desc : Option String)
        (vt : VersionType) (cb : String) (ca : Option Nat) (v : Version),
      mkVersion now id pid name desc vt cb ca = Except.ok v →
      v.id = pyStrip id ∧ v.name = pyStrip name ∧ v.parent_id = pid) ∧
    (mkVersion 0 " root " none "Root" none VersionType.TRUNK "unknown" none =
        Except.ok { id := "root", name := "Root" } ∧
      mkVersion 0 "c" (some " root ") "C" none VersionType.TRUNK "unknown" none =
        Except.ok { id := "c", parent_id := some " root ", name := "C" } ∧
      rootsOf [{ id := "root", name := "Root" },
               { id := "c", parent_id := some " root ", name := "C" }] =
        ["root", "c"] ∧
      (linearize [{ id := "root", name := "Root" },
                  { id := "c", parent_id := some " root ", name := "C" }]).map
          (fun n => (n.version.id, n.depth, n.ancestors)) =
        [("root", 0, []), ("c", 0, [])]) := by
  constructor
  · intro now id name pid desc vt cb ca v h
    unfold mkVersion at h
    split_ifs at h
    injection h with h
    rw [← h]
    exact ⟨rfl, rfl, rfl⟩
  · exact ⟨by rfl, by rfl, by decide, by decide⟩

/-- Witness for `mkVersion_trims_and_orphan`: a concrete construction
with whitespace around id and name. -/
theorem mkVersion_trims_witness :
    mkVersion 0 " a " (some "p") " N " none VersionType.TRUNK "unknown" none =
        Except.ok { id := "a", parent_id := some "p", name := "N" } ∧
    (({ id := "a", parent_id := some "p", name := "N" } : Version).id =
        pyStrip " a " ∧
      ({ id := "a", parent_id := some "p", name := "N" } : Version).name =
        pyStrip " N " ∧
      ({ id := "a", parent_id := some "p", name := "N" } : Version).parent_id =
        some "p") :=
  ⟨by rfl,
    mkVersion_trims_and_orphan.1 0 " a " " N " (some "p") none
      VersionType.TRUNK "unknown" none
      { id := "a", parent_id := some "p", name := "N" } (by rfl)⟩

